import Mathlib

/-
  Verification of the store/persistence subsystem of the WhatsAppWapClient
  repository (src/persistentStorage.js, src/serverWml.js, src/loadChatUtils.js).

  The JavaScript code is shallowly embedded: JS Map objects become
  insertion-ordered association lists over String keys, JSON documents become
  an inductive value type, and the event handlers become pure state
  transformers.  Fallible JS code (statements that can throw a TypeError or a
  JSON parse error) is modelled with Except / Option and with an explicit
  corrupt-file marker.  Message and contact records are modelled with the
  fields this layer actually inspects (key.id, key.remoteJid, key.fromMe,
  message.conversation, contact id and name); all other payload fields are
  opaque to the store and are passed through JSON serialization unchanged,
  so they are omitted from the embedding.  Message ids and thread keys are
  modelled as strings, which is the namespace the protocol layer uses; the
  JS truthiness test on an id therefore becomes a non-empty-string test.
-/

namespace WapClient

/-- JSON-like dynamic values as the JavaScript runtime sees them.
The constructor undef models JavaScript undefined, distinct from null. -/
inductive JVal where
  | undef
  | null
  | jbool (b : Bool)
  | jnum (n : Int)
  | jstr (s : String)
  | jarr (xs : List JVal)
  | jobj (fields : List (String × JVal))

/-- Property lookup on an object's field list; a missing field is undefined. -/
def fieldGet : List (String × JVal) → String → JVal
  | [], _ => JVal.undef
  | (f, v) :: rest, name => if f = name then v else fieldGet rest name

/-- Property access a.b on a JS value: objects look up the field, every
other value yields undefined (prototype chains are not modelled). -/
def getField (v : JVal) (name : String) : JVal :=
  match v with
  | JVal.jobj fs => fieldGet fs name
  | _ => JVal.undef

/-- Optional chaining a?.b: undefined and null short-circuit to undefined. -/
def optChain (v : JVal) (name : String) : JVal :=
  match v with
  | JVal.undef => JVal.undef
  | JVal.null => JVal.undef
  | v => getField v name

/-- JavaScript truthiness of a value (NaN is not modelled). -/
def truthy : JVal → Bool
  | JVal.undef => false
  | JVal.null => false
  | JVal.jbool b => b
  | JVal.jnum n => n != 0
  | JVal.jstr s => s ≠ ""
  | JVal.jarr _ => true
  | JVal.jobj _ => true

/-- A JS Map with string keys: an insertion-ordered association list.
All reachable states have pairwise distinct keys, as a JS Map does. -/
abbrev SMap (α : Type) := List (String × α)

/-- Map.get: the value at a key, if present. -/
def mapGet {α : Type} : SMap α → String → Option α
  | [], _ => none
  | (k, v) :: rest, k' => if k = k' then some v else mapGet rest k'

/-- Map.has. -/
def mapHas {α : Type} (m : SMap α) (k : String) : Bool :=
  (mapGet m k).isSome

/-- Map.set: overwrite in place if the key is present, else append at the
end, preserving insertion order. -/
def mapSet {α : Type} : SMap α → String → α → SMap α
  | [], k, v => [(k, v)]
  | (k', v') :: rest, k, v =>
      if k' = k then (k, v) :: rest else (k', v') :: mapSet rest k v

/-- Map.delete: remove the (unique) entry at a key, keeping the order of
the remaining entries. -/
def mapDelete {α : Type} : SMap α → String → SMap α
  | [], _ => []
  | (k', v') :: rest, k =>
      if k' = k then rest else (k', v') :: mapDelete rest k

/-- The keys of a map, in insertion order. -/
def mapKeys {α : Type} (m : SMap α) : List String :=
  m.map Prod.fst

/-- The well-formedness invariant of a JS Map: no duplicate keys. -/
def nodupKeys {α : Type} (m : SMap α) : Prop :=
  (mapKeys m).Nodup

theorem mapGet_mapSet {α : Type} (m : SMap α) (k k' : String) (v : α) :
    mapGet (mapSet m k v) k' = if k = k' then some v else mapGet m k' := by
  induction m with
  | nil => simp [mapSet, mapGet]
  | cons e rest ih =>
    obtain ⟨k₀, v₀⟩ := e
    by_cases h₀ : k₀ = k
    · subst h₀
      by_cases h₁ : k₀ = k'
      · subst h₁; simp [mapSet, mapGet]
      · simp [mapSet, mapGet, h₁]
    · by_cases h₁ : k₀ = k'
      · subst h₁
        have hkk : ¬ k = k₀ := fun h => h₀ h.symm
        simp [mapSet, mapGet, h₀, hkk]
      · simp [mapSet, mapGet, h₀, h₁, ih]

theorem mapGet_mapDelete_ne {α : Type} (m : SMap α) (k k' : String)
    (h : k ≠ k') : mapGet (mapDelete m k') k = mapGet m k := by
  induction m with
  | nil => simp [mapDelete]
  | cons e rest ih =>
    obtain ⟨k₀, v₀⟩ := e
    by_cases h₀ : k₀ = k'
    · subst h₀
      have : ¬ k₀ = k := fun hh => h (hh.symm)
      simp [mapDelete, mapGet, this]
    · by_cases h₁ : k₀ = k
      · subst h₁; simp [mapDelete, mapGet, h₀]
      · simp [mapDelete, mapGet, h₀, h₁, ih]

theorem mapGet_eq_none_of_not_mem {α : Type} (m : SMap α) (k : String)
    (h : k ∉ mapKeys m) : mapGet m k = none := by
  induction m with
  | nil => simp [mapGet]
  | cons e rest ih =>
    obtain ⟨k₀, v₀⟩ := e
    simp only [mapKeys, List.map_cons, List.mem_cons] at h
    push_neg at h
    have h₀ : ¬ k₀ = k := fun hh => h.1 hh.symm
    simp [mapGet, h₀, ih (by simpa [mapKeys] using h.2)]

theorem mem_keys_of_mapGet_isSome {α : Type} (m : SMap α) (k : String)
    (h : (mapGet m k).isSome) : k ∈ mapKeys m := by
  by_contra hmem
  rw [mapGet_eq_none_of_not_mem m k hmem] at h
  simp at h

theorem mapGet_mapDelete_self {α : Type} (m : SMap α) (k : String)
    (h : nodupKeys m) : mapGet (mapDelete m k) k = none := by
  induction m with
  | nil => simp [mapDelete, mapGet]
  | cons e rest ih =>
    obtain ⟨k₀, v₀⟩ := e
    have hcons := h
    simp only [nodupKeys, mapKeys, List.map_cons, List.nodup_cons] at hcons
    have hnd : nodupKeys rest := hcons.2
    by_cases h₀ : k₀ = k
    · subst h₀
      simp only [mapDelete, if_pos rfl]
      exact mapGet_eq_none_of_not_mem rest k₀ hcons.1
    · simp [mapDelete, mapGet, h₀, ih hnd]

theorem mapKeys_mapSet {α : Type} (m : SMap α) (k : String) (v : α) :
    mapKeys (mapSet m k v) =
      if k ∈ mapKeys m then mapKeys m else mapKeys m ++ [k] := by
  induction m with
  | nil => simp [mapSet, mapKeys]
  | cons e rest ih =>
    obtain ⟨k₀, v₀⟩ := e
    by_cases h₀ : k₀ = k
    · subst h₀
      simp [mapSet, mapKeys]
    · have hne : ¬ k = k₀ := fun hh => h₀ hh.symm
      simp only [mapSet, if_neg h₀, mapKeys, List.map_cons]
      by_cases hrest : k ∈ mapKeys rest
      · simp only [mapKeys] at ih hrest
        simp [ih, hrest, hne]
      · simp only [mapKeys] at ih hrest
        simp [ih, hrest, hne]

theorem nodupKeys_mapSet {α : Type} (m : SMap α) (k : String) (v : α)
    (h : nodupKeys m) : nodupKeys (mapSet m k v) := by
  unfold nodupKeys
  rw [mapKeys_mapSet]
  by_cases hk : k ∈ mapKeys m
  · simpa [hk] using h
  · simp only [hk, if_neg, if_false]
    exact List.Nodup.append h (by simp) (by
      intro a ha hb
      simp at hb
      subst hb
      exact hk ha)

theorem mapGet_mem {α : Type} (m : SMap α) (k : String) (v : α)
    (h : mapGet m k = some v) : (k, v) ∈ m := by
  induction m with
  | nil => simp [mapGet] at h
  | cons e rest ih =>
    obtain ⟨k₀, v₀⟩ := e
    by_cases h₀ : k₀ = k
    · subst h₀
      simp [mapGet] at h
      subst h
      exact List.mem_cons_self _ _
    · simp [mapGet, h₀] at h
      exact List.mem_cons_of_mem _ (ih h)

/-- The key object of a message (msg.key in the source); absent when the
event record carries no key object at all. -/
structure MsgKey where
  id : Option String
  remoteJid : String
  fromMe : Bool
deriving DecidableEq

/-- A message event record, restricted to the fields this layer inspects.
The conversation field models msg.message?.conversation; every other
payload field is opaque to the store and omitted from the embedding. -/
structure WMsg where
  key : Option MsgKey
  conversation : Option String
deriving DecidableEq

/-- A contact record, restricted to the fields this layer inspects. -/
structure Contact where
  id : String
  name : Option String
deriving DecidableEq

/-- The persisted sync-metadata record. -/
structure Meta where
  lastSync : Option String
  isFullySynced : Bool
  syncAttempts : Int
deriving DecidableEq

/-- The three in-memory collections of serverWml.js: contactStore,
chatStore (thread key to ordered message sequence) and messageStore
(the flat message index keyed by message id). -/
structure Stores where
  contacts : SMap Contact
  chats : SMap (List WMsg)
  messages : SMap WMsg
deriving DecidableEq

/-- The guard value of the test if (msg.key?.id): the message id when the
key object is present and its id is a truthy (non-empty) string. -/
def msgValidId (m : WMsg) : Option String :=
  match m.key with
  | some k =>
    match k.id with
    | some i => if i = "" then none else some i
    | none => none
  | none => none

/-- The owning-thread key msg.key.remoteJid, when the key object exists. -/
def msgOwner (m : WMsg) : Option String :=
  m.key.map (fun k => k.remoteJid)

/-- The ordered message sequence of one thread (empty when the thread is
unknown). -/
def threadSeq (st : Stores) (t : String) : List WMsg :=
  (mapGet st.chats t).getD []

/-- The store mutation performed for one valid message by the
messages.upsert handler (serverWml.js lines 2801-2815): set the flat index
entry, create the owning thread if absent, push the message onto the
thread sequence, then drop the single front entry if the length exceeds
200.  The flat index is not touched by that drop. -/
def ingestCapped (st : Stores) (m : WMsg) (i cid : String) : Stores :=
  let messages := mapSet st.messages i m
  let chats0 := if mapHas st.chats cid then st.chats else mapSet st.chats cid []
  let seq := (mapGet chats0 cid).getD [] ++ [m]
  let seq2 := if seq.length > 200 then seq.tail else seq
  { contacts := st.contacts, chats := mapSet chats0 cid seq2, messages := messages }

/-- The store mutation of the messages.upsert handler for one record:
records failing the if (msg.key?.id) guard mutate nothing. -/
def upsertMutate (st : Stores) (m : WMsg) : Stores :=
  match msgValidId m, msgOwner m with
  | some i, some cid => ingestCapped st m i cid
  | _, _ => st

/-- One full iteration of the messages.upsert for-loop: the store mutation,
then the auto-respond test, whose expression msg.key.fromMe reads the key
object without optional chaining and therefore throws a TypeError when the
record has no key object.  Sending the pong reply has no store effect and
its own failures are caught inside the loop. -/
def upsertOne (st : Stores) (m : WMsg) : Except String Stores :=
  let st2 := upsertMutate st m
  match m.key with
  | none => Except.error "TypeError: cannot read fromMe of undefined"
  | some _ => Except.ok st2

/-- The messages.upsert handler over a batch: iterate the records in
order; an uncaught throw aborts the loop, leaving the mutations of the
already-processed prefix in place (the throwing record itself never
mutates, since it failed the key?.id guard). -/
def upsertBatch : Stores → List WMsg → Stores × Option String
  | st, [] => (st, none)
  | st, m :: rest =>
    match upsertOne st m with
    | Except.ok st2 => upsertBatch st2 rest
    | Except.error e => (st, some e)

/-- The store mutation performed for one valid message by the
messaging-history.set handler (serverWml.js lines 2775-2787): identical to
the live path except that no length bound is applied to the thread. -/
def ingestUncapped (st : Stores) (m : WMsg) (i cid : String) : Stores :=
  let messages := mapSet st.messages i m
  let chats0 := if mapHas st.chats cid then st.chats else mapSet st.chats cid []
  let seq := (mapGet chats0 cid).getD [] ++ [m]
  { contacts := st.contacts, chats := mapSet chats0 cid seq, messages := messages }

/-- One iteration of the message loop of the messaging-history.set
handler; records failing the if (msg.key?.id) guard are skipped. -/
def historyMsgOne (st : Stores) (m : WMsg) : Stores :=
  match msgValidId m, msgOwner m with
  | some i, some cid => ingestUncapped st m i cid
  | _, _ => st

/-- The message loop of the messaging-history.set handler over a batch. -/
def historySetMessages (st : Stores) (msgs : List WMsg) : Stores :=
  msgs.foldl historyMsgOne st

/-- The chat loop of the messaging-history.set handler: create each listed
thread when absent. -/
def historySetChat (chats : SMap (List WMsg)) (cid : String) : SMap (List WMsg) :=
  if mapHas chats cid then chats else mapSet chats cid []

/-- The full messaging-history.set handler body (chats loop, contacts
loop, messages loop); the isLatest bookkeeping and the saveAll signal have
no store effect and are modelled elsewhere. -/
def historySetHandler (st : Stores) (chatIds : List String)
    (contacts : List Contact) (msgs : List WMsg) : Stores :=
  let st1 := { st with chats := chatIds.foldl historySetChat st.chats }
  let st2 := { st1 with contacts := contacts.foldl (fun acc c => mapSet acc c.id c) st1.contacts }
  historySetMessages st2 msgs

theorem mapGet_eq_none_of_not_has {α : Type} (m : SMap α) (k : String)
    (h : ¬ mapHas m k = true) : mapGet m k = none := by
  unfold mapHas at h
  cases hm : mapGet m k with
  | none => rfl
  | some v => rw [hm] at h; simp at h

theorem threadSeq_ingestCapped (st : Stores) (m : WMsg) (i cid t : String) :
    threadSeq (ingestCapped st m i cid) t =
      if cid = t then
        (let s := threadSeq st cid ++ [m];
         if s.length > 200 then s.tail else s)
      else threadSeq st t := by
  unfold ingestCapped threadSeq
  simp only [mapGet_mapSet]
  by_cases h : cid = t
  · subst h
    by_cases hh : mapHas st.chats cid
    · simp [hh]
    · simp [hh, mapGet_mapSet, mapGet_eq_none_of_not_has st.chats cid hh]
  · by_cases hh : mapHas st.chats cid
    · simp [h, hh]
    · simp [h, hh, mapGet_mapSet]

theorem threadSeq_ingestUncapped (st : Stores) (m : WMsg) (i cid t : String) :
    threadSeq (ingestUncapped st m i cid) t =
      if cid = t then threadSeq st cid ++ [m] else threadSeq st t := by
  unfold ingestUncapped threadSeq
  simp only [mapGet_mapSet]
  by_cases h : cid = t
  · subst h
    by_cases hh : mapHas st.chats cid
    · simp [hh]
    · simp [hh, mapGet_mapSet, mapGet_eq_none_of_not_has st.chats cid hh]
  · by_cases hh : mapHas st.chats cid
    · simp [h, hh]
    · simp [h, hh, mapGet_mapSet]

/-- Contents of one file on disk: either bytes that JSON-parse to a
document, or bytes on which JSON.parse throws. -/
inductive FileContent where
  | parsed (doc : JVal)
  | corrupt

/-- The filesystem visible to the Durable Writer: path to content. -/
abbrev FS := SMap FileContent

def fsRead (fs : FS) (p : String) : Option FileContent :=
  mapGet fs p

def fsWrite (fs : FS) (p : String) (c : FileContent) : FS :=
  mapSet fs p c

/-- An atomic rename: the destination receives exactly the source's
content in one step and the source disappears. -/
def fsRename (fs : FS) (src dst : String) : FS :=
  match fsRead fs src with
  | some c => fsWrite (mapDelete fs src) dst c
  | none => fs

/-- The temporary sibling path used by saveToFile. -/
def tmpPath (p : String) : String := p ++ ".tmp"

/-- The state of the filesystem right after saveToFile's writeFileSync of
the serialized bytes to the temporary sibling, before the rename. -/
def writeTmpFS (fs : FS) (p : String) (doc : JVal) : FS :=
  fsWrite fs (tmpPath p) (FileContent.parsed doc)

/-- The Durable Writer core of saveToFile (persistentStorage.js lines
129-132): write the serialized document to the temp sibling, then rename
it over the target path. -/
def durableWrite (fs : FS) (p : String) (doc : JVal) : FS :=
  fsRename (writeTmpFS fs p doc) (tmpPath p) p

def contactsPath : String := "data/contacts.json"

def chatsPath : String := "data/chats.json"

def messagesPath : String := "data/messages.json"

def metaPath : String := "data/meta.json"

/-- JSON encoding of a contact record (the fields this layer inspects). -/
def encodeContact (c : Contact) : JVal :=
  JVal.jobj ([("id", JVal.jstr c.id)] ++
    (match c.name with
     | some n => [("name", JVal.jstr n)]
     | none => []))

/-- Typed reading of a parsed contact object back into the embedding. -/
def decodeContact (v : JVal) : Option Contact :=
  match v with
  | JVal.jobj _ =>
    match getField v "id" with
    | JVal.jstr s =>
      some { id := s,
             name := match getField v "name" with
                     | JVal.jstr n => some n
                     | _ => none }
    | _ => none
  | _ => none

/-- JSON encoding of a message key object. -/
def encodeKey (k : MsgKey) : JVal :=
  JVal.jobj ((match k.id with
              | some s => [("id", JVal.jstr s)]
              | none => []) ++
    [("remoteJid", JVal.jstr k.remoteJid), ("fromMe", JVal.jbool k.fromMe)])

def decodeKey (v : JVal) : Option MsgKey :=
  match v with
  | JVal.jobj _ =>
    match getField v "remoteJid", getField v "fromMe" with
    | JVal.jstr r, JVal.jbool b =>
      some { id := match getField v "id" with
                   | JVal.jstr s => some s
                   | _ => none,
             remoteJid := r, fromMe := b }
    | _, _ => none
  | _ => none

/-- JSON encoding of a message record; fields whose value is absent are
omitted, as JSON.stringify does for undefined properties. -/
def encodeWMsg (m : WMsg) : JVal :=
  JVal.jobj ((match m.key with
              | some k => [("key", encodeKey k)]
              | none => []) ++
    (match m.conversation with
     | some c => [("message", JVal.jobj [("conversation", JVal.jstr c)])]
     | none => []))

def decodeWMsg (v : JVal) : Option WMsg :=
  match v with
  | JVal.jobj _ =>
    let conv : Option String :=
      match optChain (getField v "message") "conversation" with
      | JVal.jstr s => some s
      | _ => none
    match getField v "key" with
    | JVal.undef => some { key := none, conversation := conv }
    | kv => (decodeKey kv).map (fun k => { key := some k, conversation := conv })
  | _ => none

/-- A thread is serialized as the JSON array of its messages. -/
def encodeThread (ms : List WMsg) : JVal :=
  JVal.jarr (ms.map encodeWMsg)

def decodeMsgList : List JVal → Option (List WMsg)
  | [] => some []
  | v :: rest =>
    match decodeWMsg v, decodeMsgList rest with
    | some m, some r => some (m :: r)
    | _, _ => none

def decodeThread (v : JVal) : Option (List WMsg) :=
  match v with
  | JVal.jarr xs => decodeMsgList xs
  | _ => none

/-- Serialization of a collection, as in saveToFile: the JSON array of
its key/value entry pairs in insertion order. -/
def encodeEntriesDoc {α : Type} (enc : α → JVal) (m : SMap α) : JVal :=
  JVal.jarr (m.map (fun e => JVal.jarr [JVal.jstr e.1, enc e.2]))

def decodeEntries {α : Type} (dec : JVal → Option α) : List JVal → Option (List (String × α))
  | [] => some []
  | JVal.jarr [JVal.jstr k, vv] :: rest =>
    match dec vv, decodeEntries dec rest with
    | some d, some r => some ((k, d) :: r)
    | _, _ => none
  | _ :: _ => none

def decodeEntriesDoc {α : Type} (dec : JVal → Option α) (v : JVal) : Option (List (String × α)) :=
  match v with
  | JVal.jarr xs => decodeEntries dec xs
  | _ => none

/-- Rebuilding a Map from an entries list, as the Map constructor does:
later pairs with a duplicate key overwrite earlier ones. -/
def listToMap {α : Type} (l : List (String × α)) : SMap α :=
  l.foldl (fun acc e => mapSet acc e.1 e.2) []

/-- JSON encoding of the metadata record, as written by the shutdown
flush. -/
def encodeMeta (m : Meta) : JVal :=
  JVal.jobj [("isFullySynced", JVal.jbool m.isFullySynced),
             ("syncAttempts", JVal.jnum m.syncAttempts),
             ("lastSync", match m.lastSync with
                          | some s => JVal.jstr s
                          | none => JVal.null)]

/-- The metadata merge of loadAllData: spreading the parsed object over
the defaults.  Fields the parsed object lacks keep their default; the
merge itself never throws.  In loadAllData the record being merged into
always still holds the defaults, so the merge is this total read. -/
def decodeMeta (v : JVal) : Meta :=
  { lastSync := match getField v "lastSync" with
                | JVal.jstr s => some s
                | _ => none,
    isFullySynced := match getField v "isFullySynced" with
                     | JVal.jbool b => b
                     | _ => false,
    syncAttempts := match getField v "syncAttempts" with
                    | JVal.jnum n => n
                    | _ => 0 }

def defaultMeta : Meta :=
  { lastSync := none, isFullySynced := false, syncAttempts := 0 }

/-- The result record of loadAllData, with its initial defaults. -/
structure LoadResult where
  contacts : SMap Contact
  chats : SMap (List WMsg)
  messages : SMap WMsg
  meta : Meta
deriving DecidableEq

def defaultLoadResult : LoadResult :=
  { contacts := [], chats := [], messages := [], meta := defaultMeta }

/-- Loading of the contacts file inside loadAllData's try block: a missing
file leaves the collection as is; a corrupt file or a document the Map
construction rejects throws. -/
def loadContactsStep (fs : FS) (r : LoadResult) : Except String LoadResult :=
  match fsRead fs contactsPath with
  | none => Except.ok r
  | some FileContent.corrupt => Except.error "parse error"
  | some (FileContent.parsed doc) =>
    match decodeEntriesDoc decodeContact doc with
    | some l => Except.ok { r with contacts := listToMap l }
    | none => Except.error "bad document shape"

def loadChatsStep (fs : FS) (r : LoadResult) : Except String LoadResult :=
  match fsRead fs chatsPath with
  | none => Except.ok r
  | some FileContent.corrupt => Except.error "parse error"
  | some (FileContent.parsed doc) =>
    match decodeEntriesDoc decodeThread doc with
    | some l => Except.ok { r with chats := listToMap l }
    | none => Except.error "bad document shape"

def loadMessagesStep (fs : FS) (r : LoadResult) : Except String LoadResult :=
  match fsRead fs messagesPath with
  | none => Except.ok r
  | some FileContent.corrupt => Except.error "parse error"
  | some (FileContent.parsed doc) =>
    match decodeEntriesDoc decodeWMsg doc with
    | some l => Except.ok { r with messages := listToMap l }
    | none => Except.error "bad document shape"

def loadMetaStep (fs : FS) (r : LoadResult) : Except String LoadResult :=
  match fsRead fs metaPath with
  | none => Except.ok r
  | some FileContent.corrupt => Except.error "parse error"
  | some (FileContent.parsed doc) => Except.ok { r with meta := decodeMeta doc }

/-- loadAllData (persistentStorage.js lines 23-70): the four loads run
inside one try block in the order contacts, chats, messages, meta; the
catch returns the result object as filled so far, so the first failure
aborts its own load and every later one. -/
def loadAllData (fs : FS) : LoadResult :=
  match loadContactsStep fs defaultLoadResult with
  | Except.error _ => defaultLoadResult
  | Except.ok r1 =>
    match loadChatsStep fs r1 with
    | Except.error _ => r1
    | Except.ok r2 =>
      match loadMessagesStep fs r2 with
      | Except.error _ => r2
      | Except.ok r3 =>
        match loadMetaStep fs r3 with
        | Except.error _ => r3
        | Except.ok r4 => r4

/-- The argument of one saveToFile call, with its serialization and
target path as chosen by the switch in saveToFile. -/
inductive SaveData where
  | contacts (m : SMap Contact)
  | chats (m : SMap (List WMsg))
  | messages (m : SMap WMsg)
  | meta (m : Meta)

def savePath : SaveData → String
  | SaveData.contacts _ => contactsPath
  | SaveData.chats _ => chatsPath
  | SaveData.messages _ => messagesPath
  | SaveData.meta _ => metaPath

def saveDoc : SaveData → JVal
  | SaveData.contacts m => encodeEntriesDoc encodeContact m
  | SaveData.chats m => encodeEntriesDoc encodeThread m
  | SaveData.messages m => encodeEntriesDoc encodeWMsg m
  | SaveData.meta m => encodeMeta m

/-- saveToFile: serialize the collection and hand it to the Durable
Writer (temp write plus rename).  saveImmediately is the same call. -/
def saveToFile (fs : FS) (d : SaveData) : FS :=
  durableWrite fs (savePath d) (saveDoc d)

/-- The shutdown flush: saveImmediately of all four records in order, as
gracefulShutdown does. -/
def flushAllNow (fs : FS) (st : Stores) (meta : Meta) : FS :=
  saveToFile
    (saveToFile
      (saveToFile
        (saveToFile fs (SaveData.contacts st.contacts))
        (SaveData.chats st.chats))
      (SaveData.messages st.messages))
    (SaveData.meta meta)

theorem decodeContact_encodeContact (c : Contact) :
    decodeContact (encodeContact c) = some c := by
  obtain ⟨i, nm⟩ := c
  cases nm <;> rfl

theorem decodeKey_encodeKey (k : MsgKey) :
    decodeKey (encodeKey k) = some k := by
  obtain ⟨id, rj, fm⟩ := k
  cases id <;> rfl

theorem decodeWMsg_encodeWMsg (m : WMsg) :
    decodeWMsg (encodeWMsg m) = some m := by
  obtain ⟨key, conv⟩ := m
  cases key with
  | none => cases conv <;> rfl
  | some k =>
    obtain ⟨id, rj, fm⟩ := k
    cases id <;> cases conv <;> rfl

theorem decodeMsgList_map (ms : List WMsg) :
    decodeMsgList (ms.map encodeWMsg) = some ms := by
  induction ms with
  | nil => rfl
  | cons m rest ih =>
    simp only [List.map_cons, decodeMsgList, decodeWMsg_encodeWMsg, ih]

theorem decodeThread_encodeThread (ms : List WMsg) :
    decodeThread (encodeThread ms) = some ms := by
  unfold encodeThread decodeThread
  exact decodeMsgList_map ms

theorem decodeEntries_map {α : Type} (dec : JVal → Option α) (enc : α → JVal)
    (hdec : ∀ a, dec (enc a) = some a) (l : List (String × α)) :
    decodeEntries dec (l.map (fun e => JVal.jarr [JVal.jstr e.1, enc e.2])) = some l := by
  induction l with
  | nil => rfl
  | cons e rest ih =>
    obtain ⟨k, v⟩ := e
    simp only [List.map_cons, decodeEntries, hdec, ih]

theorem decodeEntriesDoc_encodeEntriesDoc {α : Type} (dec : JVal → Option α)
    (enc : α → JVal) (hdec : ∀ a, dec (enc a) = some a) (m : SMap α) :
    decodeEntriesDoc dec (encodeEntriesDoc enc m) = some m := by
  unfold encodeEntriesDoc decodeEntriesDoc
  exact decodeEntries_map dec enc hdec m

theorem decodeMeta_encodeMeta (m : Meta) :
    decodeMeta (encodeMeta m) = m := by
  obtain ⟨ls, fsn, sa⟩ := m
  cases ls <;> rfl

theorem mapSet_eq_append {α : Type} (m : SMap α) (k : String) (v : α)
    (h : mapGet m k = none) : mapSet m k v = m ++ [(k, v)] := by
  induction m with
  | nil => rfl
  | cons e rest ih =>
    obtain ⟨k₀, v₀⟩ := e
    by_cases h₀ : k₀ = k
    · subst h₀; simp [mapGet] at h
    · simp only [mapGet, if_neg h₀] at h
      simp [mapSet, h₀, ih h]

theorem foldl_mapSet_eq_append {α : Type} (l : List (String × α)) :
    ∀ acc : SMap α, (∀ e ∈ l, mapGet acc e.1 = none) →
      nodupKeys l →
      l.foldl (fun acc e => mapSet acc e.1 e.2) acc = acc ++ l := by
  induction l with
  | nil => intro acc _ _; simp
  | cons e rest ih =>
    intro acc hd hl
    obtain ⟨k, v⟩ := e
    have hnd : nodupKeys rest := by
      simpa [nodupKeys, mapKeys] using (List.Nodup.of_cons (by simpa [nodupKeys, mapKeys] using hl))
    have hknotin : k ∉ mapKeys rest := by
      have := hl
      simp only [nodupKeys, mapKeys, List.map_cons, List.nodup_cons] at this
      exact this.1
    have hd2 : ∀ e2 ∈ rest, mapGet (mapSet acc k v) e2.1 = none := by
      intro e2 he2
      rw [mapGet_mapSet]
      have hne : ¬ k = e2.1 := by
        intro hh
        exact hknotin (by
          subst hh
          exact List.mem_map_of_mem Prod.fst he2)
      simp [hne]
      exact hd e2 (List.mem_cons_of_mem _ he2)
    calc List.foldl (fun acc e => mapSet acc e.1 e.2) acc ((k, v) :: rest)
        = List.foldl (fun acc e => mapSet acc e.1 e.2) (mapSet acc k v) rest := by rfl
      _ = mapSet acc k v ++ rest := ih (mapSet acc k v) hd2 hnd
      _ = (acc ++ [(k, v)]) ++ rest := by
            rw [mapSet_eq_append acc k v (hd (k, v) (List.mem_cons_self _ _))]
      _ = acc ++ (k, v) :: rest := by simp

theorem listToMap_eq_self {α : Type} (l : SMap α) (h : nodupKeys l) :
    listToMap l = l := by
  unfold listToMap
  have := foldl_mapSet_eq_append l [] (by intro e _; rfl) h
  simpa using this

theorem tmpPath_ne (p : String) : p ≠ tmpPath p := by
  intro h
  have hlen := congrArg String.length h
  have h4 : (".tmp" : String).length = 4 := rfl
  rw [tmpPath, String.length_append, h4] at hlen
  omega

theorem fsRead_durableWrite_self (fs : FS) (p : String) (doc : JVal) :
    fsRead (durableWrite fs p doc) p = some (FileContent.parsed doc) := by
  unfold durableWrite writeTmpFS fsRename fsRead fsWrite
  rw [mapGet_mapSet]
  simp [mapGet_mapSet]

theorem fsRead_durableWrite_other (fs : FS) (p : String) (doc : JVal)
    (q : String) (h1 : q ≠ p) (h2 : q ≠ tmpPath p) :
    fsRead (durableWrite fs p doc) q = fsRead fs q := by
  unfold durableWrite writeTmpFS fsRename fsRead fsWrite
  rw [mapGet_mapSet]
  simp only [if_pos rfl, ite_true]
  rw [mapGet_mapSet]
  have hp : ¬ p = q := fun hh => h1 hh.symm
  rw [if_neg hp, mapGet_mapDelete_ne _ _ _ h2, mapGet_mapSet]
  have ht : ¬ tmpPath p = q := fun hh => h2 hh.symm
  rw [if_neg ht]

/-- Which live collection a queue reference points at. -/
inductive LiveColl where
  | contacts
  | chats
  | messages
deriving DecidableEq

/-- A value held in the save queue.  The three collection call sites
(saveContacts, saveChats, saveMessages) pass the live Map object, so the
queue effectively holds a reference that is serialized at flush time;
saveMeta builds a fresh metadata object at signal time and the queue holds
that frozen snapshot. -/
inductive QData where
  | live (c : LiveColl)
  | frozen (doc : JVal)

def collName : LiveColl → String
  | LiveColl.contacts => "contacts"
  | LiveColl.chats => "chats"
  | LiveColl.messages => "messages"

/-- Serialization of a live collection, as saveToFile performs it when
the queued reference is flushed. -/
def serializeColl (c : LiveColl) (st : Stores) : JVal :=
  match c with
  | LiveColl.contacts => encodeEntriesDoc encodeContact st.contacts
  | LiveColl.chats => encodeEntriesDoc encodeThread st.chats
  | LiveColl.messages => encodeEntriesDoc encodeWMsg st.messages

/-- State of the Flush Scheduler together with the live stores and the
log of Durable Writer invocations.  isProcessing true is the PendingFlush
state: a debounce timer is armed. -/
structure Sys where
  queue : SMap QData
  processing : Bool
  stores : Stores
  meta : Meta
  writes : List (String × JVal)

/-- queueSave: record the entry under its name (overwriting any earlier
entry for that name) and arm the debounce timer if idle. -/
def sysQueueSave (s : Sys) (name : String) (d : QData) : Sys :=
  { s with queue := mapSet s.queue name d, processing := true }

/-- processSaveQueue on timer fire: atomically take the whole queue,
clear it, return to Idle, then hand each taken entry to the Durable
Writer, serializing live references against the stores as they are now. -/
def sysFire (s : Sys) : Sys :=
  { s with queue := [], processing := false,
           writes := s.writes ++ s.queue.map (fun e =>
             (e.1, match e.2 with
                   | QData.live c => serializeColl c s.stores
                   | QData.frozen doc => doc)) }

/-- Events interleaved with the scheduler: the three collection signals,
the metadata signal, arbitrary store or metadata mutations from the
ingestion stream, and the debounce timer firing. -/
inductive SchedEv where
  | sig (c : LiveColl)
  | sigMeta
  | mutate (f : Stores → Stores)
  | mutateMeta (f : Meta → Meta)
  | fire

def SchedEv.isFire : SchedEv → Bool
  | SchedEv.fire => true
  | _ => false

def sysStep (s : Sys) : SchedEv → Sys
  | SchedEv.sig c => sysQueueSave s (collName c) (QData.live c)
  | SchedEv.sigMeta => sysQueueSave s "meta" (QData.frozen (encodeMeta s.meta))
  | SchedEv.mutate f => { s with stores := f s.stores }
  | SchedEv.mutateMeta f => { s with meta := f s.meta }
  | SchedEv.fire => sysFire s

def sysRun (s : Sys) (evs : List SchedEv) : Sys :=
  evs.foldl sysStep s

/-- cleanupOldMessages, per removed message: the index entry is deleted
only when msg.key?.id is truthy and the index still holds it; the cleaned
counter counts actual deletions. -/
def cleanupDeletions (acc : SMap WMsg × Nat) (old : List WMsg) : SMap WMsg × Nat :=
  old.foldl (fun a m =>
    match msgValidId m with
    | some i => if mapHas a.1 i then (mapDelete a.1 i, a.2 + 1) else a
    | none => a) acc

/-- cleanupOldMessages, per chat entry: a thread longer than the bound is
spliced at the front down to the bound and the removed prefix is run
through the index deletions. -/
def cleanupStep (maxLen : Nat) (acc : SMap WMsg × SMap (List WMsg) × Nat)
    (e : String × List WMsg) : SMap WMsg × SMap (List WMsg) × Nat :=
  if e.2.length > maxLen then
    let old := e.2.take (e.2.length - maxLen)
    let kept := e.2.drop (e.2.length - maxLen)
    let r := cleanupDeletions (acc.1, acc.2.2) old
    (r.1, acc.2.1 ++ [(e.1, kept)], r.2)
  else
    (acc.1, acc.2.1 ++ [(e.1, e.2)], acc.2.2)

/-- cleanupOldMessages (persistentStorage.js lines 143-166): one pass over
the chat store, returning the updated index, the updated chat store and
the cleaned counter. -/
def cleanupOldMessages (msgStore : SMap WMsg) (chatStore : SMap (List WMsg))
    (maxLen : Nat) : SMap WMsg × SMap (List WMsg) × Nat :=
  chatStore.foldl (cleanupStep maxLen) (msgStore, [], 0)

/-- The queueSave signals emitted at the end of cleanupOldMessages: both
collections are signalled only when the cleaned counter is positive. -/
def cleanupSignals (cleaned : Nat) : List String :=
  if cleaned > 0 then ["messages", "chats"] else []

/-- cleanupOldMessages together with its trailing signals. -/
def cleanupAndSignal (msgStore : SMap WMsg) (chatStore : SMap (List WMsg))
    (maxLen : Nat) : (SMap WMsg × SMap (List WMsg) × Nat) × List String :=
  let r := cleanupOldMessages msgStore chatStore maxLen
  (r, cleanupSignals r.2.2)

/-- Observable actions of the gracefulShutdown routine. -/
inductive ShutAct where
  | save (name : String)
  | sockEnd
  | clearStores
  | exitCode (n : Nat)
deriving DecidableEq

def saveOrder : List String :=
  ["contacts", "chats", "messages", "meta"]

/-- The four awaited saveImmediately calls of the try block: performed in
order until one throws. -/
def trySaves (fails : String → Bool) : List String → List ShutAct × Bool
  | [] => ([], true)
  | n :: rest =>
    if fails n then ([], false)
    else
      match trySaves fails rest with
      | (acts, ok) => (ShutAct.save n :: acts, ok)

/-- gracefulShutdown (serverWml.js lines 2878-2913): flush the four
records, close the socket, clear the stores and exit 0; any throw jumps
to the catch block, which logs and exits 1 without reaching sock.end.
The socket is modelled as present, and sock.end as non-throwing. -/
def gracefulShutdownModel (fails : String → Bool) : List ShutAct :=
  match trySaves fails saveOrder with
  | (acts, true) => acts ++ [ShutAct.sockEnd, ShutAct.clearStores, ShutAct.exitCode 0]
  | (acts, false) => acts ++ [ShutAct.exitCode 1]

theorem msgValidId_key (m : WMsg) (i : String) (h : msgValidId m = some i) :
    ∃ k, m.key = some k := by
  unfold msgValidId at h
  cases hk : m.key with
  | none => rw [hk] at h; simp at h
  | some k => exact ⟨k, rfl⟩

theorem upsertBatch_single (st : Stores) (m : WMsg) (k : MsgKey)
    (hk : m.key = some k) : upsertBatch st [m] = (upsertMutate st m, none) := by
  simp [upsertBatch, upsertOne, hk]

theorem mapHas_mapSet_self {α : Type} (m : SMap α) (k : String) (v : α) :
    mapHas (mapSet m k v) k = true := by
  rw [mapHas, mapGet_mapSet]
  simp

theorem mapHas_mapSet_mono {α : Type} (m : SMap α) (k : String) (v : α)
    (i : String) (h : mapHas m i = true) : mapHas (mapSet m k v) i = true := by
  rw [mapHas, mapGet_mapSet]
  by_cases hk : k = i
  · simp [hk]
  · simpa [hk, mapHas] using h

/-- C3.  The Durable Writer's write of a collection: after the temp-file
write the target path still parses to exactly the pre-flush document, and
after the rename it parses to exactly the post-flush document — at no
observation point does the target hold anything else, so an interruption
between the two steps leaves the pre-flush snapshot intact. -/
theorem atomic_write_pre_post (fs : FS) (p : String) (doc : JVal) :
    fsRead (writeTmpFS fs p doc) p = fsRead fs p ∧
    fsRead (durableWrite fs p doc) p = some (FileContent.parsed doc) := by
  constructor
  · unfold writeTmpFS fsRead fsWrite
    rw [mapGet_mapSet, if_neg (fun h => tmpPath_ne p h.symm)]
  · exact fsRead_durableWrite_self fs p doc

/-- C1 counterexample.  Ingesting the same message (id "a", thread "t")
twice through the messages.upsert handler leaves one entry in the flat
index but two references in the thread sequence: the handler pushes
unconditionally, it never checks index membership. -/
theorem upsert_duplicate_counterexample :
    (threadSeq (upsertBatch
        (upsertBatch { contacts := [], chats := [], messages := [] }
          [{ key := some { id := some "a", remoteJid := "t", fromMe := true }, conversation := none }]).1
        [{ key := some { id := some "a", remoteJid := "t", fromMe := true }, conversation := none }]).1
      "t").length = 2 ∧
    (mapKeys (upsertBatch
        (upsertBatch { contacts := [], chats := [], messages := [] }
          [{ key := some { id := some "a", remoteJid := "t", fromMe := true }, conversation := none }]).1
        [{ key := some { id := some "a", remoteJid := "t", fromMe := true }, conversation := none }]).1.messages).count
      "a" = 1 := by
  decide

/-- C1 amended.  Re-ingesting a message whose id is already in the flat
index overwrites the index entry (exactly one entry for that id remains),
but always appends a second reference to the owning thread's sequence:
the upsert handler does not check index membership before pushing. -/
theorem upsert_reinsert_overwrites_index_duplicates_thread
    (st : Stores) (m : WMsg) (i t : String)
    (hid : msgValidId m = some i) (hown : msgOwner m = some t)
    (hnd : nodupKeys st.messages) (hhas : mapHas st.messages i = true)
    (hlen : (threadSeq st t).length < 200) :
    (mapKeys (upsertBatch st [m]).1.messages).count i = 1 ∧
    threadSeq (upsertBatch st [m]).1 t = threadSeq st t ++ [m] := by
  obtain ⟨k, hk⟩ := msgValidId_key m i hid
  rw [upsertBatch_single st m k hk]
  have hmut : upsertMutate st m = ingestCapped st m i t := by
    simp [upsertMutate, hid, hown]
  rw [hmut]
  constructor
  · show (mapKeys (mapSet st.messages i m)).count i = 1
    rw [mapKeys_mapSet]
    have hmem : i ∈ mapKeys st.messages :=
      mem_keys_of_mapGet_isSome st.messages i (by simpa [mapHas] using hhas)
    rw [if_pos hmem]
    exact List.count_eq_one_of_mem hnd hmem
  · rw [threadSeq_ingestCapped, if_pos rfl]
    have : ¬ (threadSeq st t ++ [m]).length > 200 := by
      simp only [List.length_append, List.length_singleton]
      omega
    simp only [this, if_false]

/-- C1 amended, witness at a concrete store that already holds the
message under id "a" in both structures. -/
theorem upsert_reinsert_witness :
    (mapKeys (upsertBatch
      { contacts := [],
        chats := [("t", [{ key := some { id := some "a", remoteJid := "t", fromMe := true }, conversation := none }])],
        messages := [("a", { key := some { id := some "a", remoteJid := "t", fromMe := true }, conversation := none })] }
      [{ key := some { id := some "a", remoteJid := "t", fromMe := true }, conversation := none }]).1.messages).count "a" = 1 ∧
    threadSeq (upsertBatch
      { contacts := [],
        chats := [("t", [{ key := some { id := some "a", remoteJid := "t", fromMe := true }, conversation := none }])],
        messages := [("a", { key := some { id := some "a", remoteJid := "t", fromMe := true }, conversation := none })] }
      [{ key := some { id := some "a", remoteJid := "t", fromMe := true }, conversation := none }]).1 "t"
      = [{ key := some { id := some "a", remoteJid := "t", fromMe := true }, conversation := none }]
        ++ [{ key := some { id := some "a", remoteJid := "t", fromMe := true }, conversation := none }] := by
  have h := upsert_reinsert_overwrites_index_duplicates_thread
    { contacts := [],
      chats := [("t", [{ key := some { id := some "a", remoteJid := "t", fromMe := true }, conversation := none }])],
      messages := [("a", { key := some { id := some "a", remoteJid := "t", fromMe := true }, conversation := none })] }
    { key := some { id := some "a", remoteJid := "t", fromMe := true }, conversation := none }
    "a" "t" (by decide) (by decide) (by unfold nodupKeys; decide) (by decide) (by decide)
  exact ⟨h.1, h.2⟩

/-- C9 counterexample.  A batch whose first record lacks the key object:
the record is skipped for mutation, but the handler then throws on
msg.key.fromMe, so the remaining record of the batch (with valid id "g")
is never ingested — the handler does raise and processing does not
continue. -/
theorem upsert_missing_key_counterexample :
    (upsertBatch { contacts := [], chats := [], messages := [] }
      [{ key := none, conversation := none },
       { key := some { id := some "g", remoteJid := "t", fromMe := false }, conversation := none }]).2.isSome = true ∧
    mapHas (upsertBatch { contacts := [], chats := [], messages := [] }
      [{ key := none, conversation := none },
       { key := some { id := some "g", remoteJid := "t", fromMe := false }, conversation := none }]).1.messages "g" = false := by
  decide

/-- C9 amended.  A record whose key object exists but carries no truthy
id is skipped without mutation and without raising, and the batch
continues; a record lacking the key object entirely is skipped for
mutation but the handler then throws a TypeError, aborting the rest of
the batch; the messaging-history.set message loop skips any record
without a truthy id and never throws. -/
theorem upsert_skip_behaviour (st : Stores) (m : WMsg) (rest : List WMsg) :
    (∀ k, m.key = some k → msgValidId m = none →
      upsertBatch st (m :: rest) = upsertBatch st rest) ∧
    (m.key = none →
      upsertBatch st (m :: rest) = (st, some "TypeError: cannot read fromMe of undefined")) ∧
    (msgValidId m = none → historyMsgOne st m = st) := by
  refine ⟨?_, ?_, ?_⟩
  · intro k hk hv
    have hmut : upsertMutate st m = st := by
      simp [upsertMutate, hv]
    simp [upsertBatch, upsertOne, hk, hmut]
  · intro hk
    have hv : msgValidId m = none := by
      simp [msgValidId, hk]
    have hmut : upsertMutate st m = st := by
      simp [upsertMutate, hv]
    simp [upsertBatch, upsertOne, hk, hmut]
  · intro hv
    simp [historyMsgOne, hv]

/-- C9 amended, witness: a record with a key object but no id is skipped
and the rest of the batch proceeds as if it were absent. -/
theorem upsert_skip_witness :
    upsertBatch { contacts := [], chats := [], messages := [] }
      [{ key := some { id := none, remoteJid := "t", fromMe := false }, conversation := none },
       { key := some { id := some "g", remoteJid := "t", fromMe := false }, conversation := none }] =
    upsertBatch { contacts := [], chats := [], messages := [] }
      [{ key := some { id := some "g", remoteJid := "t", fromMe := false }, conversation := none }] := by
  exact (upsert_skip_behaviour { contacts := [], chats := [], messages := [] }
    { key := some { id := none, remoteJid := "t", fromMe := false }, conversation := none }
    [{ key := some { id := some "g", remoteJid := "t", fromMe := false }, conversation := none }]).1
    { id := none, remoteJid := "t", fromMe := false } rfl rfl

/-- Whether the messaging-history.set message loop appends this record to
thread t: the record passes the key?.id guard and its owning thread is t. -/
def ingests (m : WMsg) (t : String) : Bool :=
  match msgValidId m, msgOwner m with
  | some _, some cid => cid == t
  | _, _ => false

theorem historyMsgOne_messages_mono (st : Stores) (m : WMsg) (i : String)
    (h : mapHas st.messages i = true) :
    mapHas (historyMsgOne st m).messages i = true := by
  unfold historyMsgOne
  cases hv : msgValidId m with
  | none => simpa using h
  | some j =>
    cases ho : msgOwner m with
    | none => simpa using h
    | some cid =>
      simpa [ingestUncapped] using mapHas_mapSet_mono st.messages j m i h

theorem historySetMessages_messages_mono (st : Stores) (msgs : List WMsg)
    (i : String) (h : mapHas st.messages i = true) :
    mapHas (historySetMessages st msgs).messages i = true := by
  induction msgs generalizing st with
  | nil => simpa [historySetMessages] using h
  | cons m rest ih =>
    show mapHas (historySetMessages (historyMsgOne st m) rest).messages i = true
    exact ih (historyMsgOne st m) (historyMsgOne_messages_mono st m i h)

theorem historySetMessages_valid_in_index (msgs : List WMsg) :
    ∀ (st : Stores) (m : WMsg), m ∈ msgs → ∀ i, msgValidId m = some i →
      mapHas (historySetMessages st msgs).messages i = true := by
  induction msgs with
  | nil =>
    intro st m hm
    simp at hm
  | cons m0 rest ih =>
    intro st m hm i hv
    have hstep : historySetMessages st (m0 :: rest)
        = historySetMessages (historyMsgOne st m0) rest := by
      simp [historySetMessages]
    rw [hstep]
    rcases List.mem_cons.mp hm with heq | hmem
    · subst heq
      obtain ⟨k, hk⟩ := msgValidId_key m i hv
      have ho : msgOwner m = some k.remoteJid := by simp [msgOwner, hk]
      have hmut : historyMsgOne st m = ingestUncapped st m i k.remoteJid := by
        simp [historyMsgOne, hv, ho]
      rw [hmut]
      exact historySetMessages_messages_mono _ rest i
        (by simpa [ingestUncapped] using mapHas_mapSet_self st.messages i m)
    · exact ih (historyMsgOne st m0) m hmem i hv

/-- C10.  The messaging-history.set path applies no length bound: the
thread sequence after a bulk batch is exactly the old sequence followed
by every valid message of the batch owned by that thread (so N valid
messages grow the thread by N, past 200), and every valid id of the batch
ends up present in the flat index. -/
theorem history_bulk_uncapped (st : Stores) (msgs : List WMsg) (t : String) :
    threadSeq (historySetMessages st msgs) t
      = threadSeq st t ++ msgs.filter (fun m => ingests m t) ∧
    (∀ m, m ∈ msgs → ∀ i, msgValidId m = some i →
      mapHas (historySetMessages st msgs).messages i = true) := by
  constructor
  · induction msgs generalizing st with
    | nil => simp [historySetMessages]
    | cons m rest ih =>
      have hstep : historySetMessages st (m :: rest)
          = historySetMessages (historyMsgOne st m) rest := by
        simp [historySetMessages]
      rw [hstep]
      cases hv : msgValidId m with
      | none =>
        have hmut : historyMsgOne st m = st := by simp [historyMsgOne, hv]
        have hing : ingests m t = false := by simp [ingests, hv]
        rw [hmut, ih st]
        simp [hing]
      | some i =>
        obtain ⟨k, hk⟩ := msgValidId_key m i hv
        have ho : msgOwner m = some k.remoteJid := by simp [msgOwner, hk]
        have hmut : historyMsgOne st m = ingestUncapped st m i k.remoteJid := by
          simp [historyMsgOne, hv, ho]
        have hing : ingests m t = (k.remoteJid == t) := by
          simp [ingests, hv, ho]
        rw [hmut, ih (ingestUncapped st m i k.remoteJid),
            threadSeq_ingestUncapped]
        by_cases hct : k.remoteJid = t
        · subst hct
          simp [hing]
        · have : (k.remoteJid == t) = false := by
            simpa using hct
          simp [hing, hct, this]
  · intro m hm i hv
    exact historySetMessages_valid_in_index msgs st m hm i hv

/-- C10, witness: a bulk batch of two valid messages for thread "t"
appended onto a thread that already holds one message. -/
theorem history_bulk_witness :
    threadSeq (historySetMessages
      { contacts := [],
        chats := [("t", [{ key := some { id := some "a", remoteJid := "t", fromMe := false }, conversation := none }])],
        messages := [] }
      [{ key := some { id := some "b", remoteJid := "t", fromMe := false }, conversation := none },
       { key := some { id := some "c", remoteJid := "t", fromMe := true }, conversation := none }]) "t"
      = threadSeq
        { contacts := [],
          chats := [("t", [{ key := some { id := some "a", remoteJid := "t", fromMe := false }, conversation := none }])],
          messages := [] } "t"
        ++ ([{ key := some { id := some "b", remoteJid := "t", fromMe := false }, conversation := none },
             { key := some { id := some "c", remoteJid := "t", fromMe := true }, conversation := none }].filter
             (fun m => ingests m "t")) := by
  exact (history_bulk_uncapped
    { contacts := [],
      chats := [("t", [{ key := some { id := some "a", remoteJid := "t", fromMe := false }, conversation := none }])],
      messages := [] }
    [{ key := some { id := some "b", remoteJid := "t", fromMe := false }, conversation := none },
     { key := some { id := some "c", remoteJid := "t", fromMe := true }, conversation := none }] "t").1

theorem trySaves_acts_saves (fails : String → Bool) (l : List String) :
    ∀ a ∈ (trySaves fails l).1, ∃ n, a = ShutAct.save n := by
  induction l with
  | nil =>
    intro a ha
    simp [trySaves] at ha
  | cons n rest ih =>
    intro a ha
    by_cases hf : fails n
    · simp [trySaves, hf] at ha
    · rcases htr : trySaves fails rest with ⟨acts, ok⟩
      simp only [trySaves, hf, if_false, htr, Bool.false_eq_true] at ha
      rcases List.mem_cons.mp ha with heq | hmem
      · exact ⟨n, heq⟩
      · exact ih a (by rw [htr]; exact hmem)

theorem trySaves_failed (fails : String → Bool) (l : List String)
    (h : ∃ n, n ∈ l ∧ fails n = true) : (trySaves fails l).2 = false := by
  induction l with
  | nil =>
    obtain ⟨n, hn, _⟩ := h
    simp at hn
  | cons n0 rest ih =>
    by_cases hf : fails n0
    · simp [trySaves, hf]
    · rcases htr : trySaves fails rest with ⟨acts, ok⟩
      obtain ⟨n, hn, hfn⟩ := h
      rcases List.mem_cons.mp hn with heq | hmem
      · subst heq
        exact absurd hfn (by simpa using hf)
      · have := ih ⟨n, hmem, hfn⟩
        rw [htr] at this
        simp [trySaves, hf, htr, this]

/-- C8 amended.  When every save succeeds, gracefulShutdown flushes all
four records, in order, before closing the upstream connection and before
exiting 0.  When any of the four saves fails, control jumps to the catch
block, which exits with status 1 WITHOUT attempting to close the upstream
connection: sock.end is unreachable on the failure path. -/
theorem shutdown_flush_then_close (fails : String → Bool) :
    ((∀ n, n ∈ saveOrder → fails n = false) →
      gracefulShutdownModel fails =
        [ShutAct.save "contacts", ShutAct.save "chats", ShutAct.save "messages",
         ShutAct.save "meta", ShutAct.sockEnd, ShutAct.clearStores, ShutAct.exitCode 0]) ∧
    ((∃ n, n ∈ saveOrder ∧ fails n = true) →
      ShutAct.sockEnd ∉ gracefulShutdownModel fails ∧
      ShutAct.exitCode 1 ∈ gracefulShutdownModel fails) := by
  constructor
  · intro h
    have h1 : fails "contacts" = false := h _ (by simp [saveOrder])
    have h2 : fails "chats" = false := h _ (by simp [saveOrder])
    have h3 : fails "messages" = false := h _ (by simp [saveOrder])
    have h4 : fails "meta" = false := h _ (by simp [saveOrder])
    simp [gracefulShutdownModel, saveOrder, trySaves, h1, h2, h3, h4]
  · intro h
    have hfail : (trySaves fails saveOrder).2 = false := trySaves_failed fails saveOrder h
    rcases htr : trySaves fails saveOrder with ⟨acts, ok⟩
    rw [htr] at hfail
    subst hfail
    have hmodel : gracefulShutdownModel fails = acts ++ [ShutAct.exitCode 1] := by
      simp [gracefulShutdownModel, htr]
    rw [hmodel]
    constructor
    · intro hmem
      rcases List.mem_append.mp hmem with hin | hin
      · obtain ⟨n2, heq⟩ := trySaves_acts_saves fails saveOrder ShutAct.sockEnd
          (by rw [htr]; exact hin)
        simp at heq
      · simp at hin
    · simp

/-- C8 counterexample.  With a failing contacts save, the shutdown trace
is just the exit with status 1: no attempt to close the upstream
connection is made, contradicting the claim that the routine still
releases the connection on flush failure. -/
theorem shutdown_no_close_counterexample :
    ShutAct.sockEnd ∉ gracefulShutdownModel (fun n => n == "contacts") ∧
    gracefulShutdownModel (fun n => n == "contacts") = [ShutAct.exitCode 1] := by
  decide

/-- C8 amended, witness with a failing meta save. -/
theorem shutdown_witness :
    ShutAct.sockEnd ∉ gracefulShutdownModel (fun n => n == "meta") ∧
    ShutAct.exitCode 1 ∈ gracefulShutdownModel (fun n => n == "meta") :=
  (shutdown_flush_then_close (fun n => n == "meta")).2 ⟨"meta", by decide, by decide⟩

/-- A sample message used by the load-scoping theorems. -/
def sampleGoodMsg : WMsg :=
  { key := some { id := some "g", remoteJid := "t", fromMe := false }, conversation := none }

/-- A persisted directory in which only the contacts file is corrupt;
chats, messages and meta are all valid and non-empty. -/
def sampleFsCorrupt : FS :=
  [(contactsPath, FileContent.corrupt),
   (chatsPath, FileContent.parsed (encodeEntriesDoc encodeThread [("t", [sampleGoodMsg])])),
   (messagesPath, FileContent.parsed (encodeEntriesDoc encodeWMsg [("g", sampleGoodMsg)])),
   (metaPath, FileContent.parsed (encodeMeta { lastSync := some "2024-01-01", isFullySynced := true, syncAttempts := 3 }))]

/-- The same directory with the corrupt contacts file absent. -/
def sampleFsOk : FS :=
  [(chatsPath, FileContent.parsed (encodeEntriesDoc encodeThread [("t", [sampleGoodMsg])])),
   (messagesPath, FileContent.parsed (encodeEntriesDoc encodeWMsg [("g", sampleGoodMsg)])),
   (metaPath, FileContent.parsed (encodeMeta { lastSync := some "2024-01-01", isFullySynced := true, syncAttempts := 3 }))]

/-- C2 counterexample.  With only the contacts file corrupt and a valid
non-empty chats file, loadAllData returns the chats collection EMPTY: the
single try block aborts all later loads, so the failure is not scoped to
the one corrupt file.  The same chats file loads fine when the corrupt
contacts file is absent. -/
theorem load_partial_counterexample :
    (loadAllData sampleFsCorrupt).chats = [] ∧
    (loadAllData sampleFsOk).chats = [("t", [sampleGoodMsg])] := by
  decide

/-- C2 amended.  A parse failure is scoped to the failing file AND every
file after it in the fixed load order contacts, chats, messages, meta:
collections loaded before the failure keep their data, the failing
collection and all later ones are left at their defaults.  The claim as
stated holds only when the failing file is the last one (meta). -/
theorem load_partial_scoping (fs : FS) :
    (fsRead fs contactsPath = some FileContent.corrupt →
      loadAllData fs = defaultLoadResult) ∧
    (∀ r1, loadContactsStep fs defaultLoadResult = Except.ok r1 →
      fsRead fs chatsPath = some FileContent.corrupt →
      loadAllData fs = r1) ∧
    (∀ r1 r2, loadContactsStep fs defaultLoadResult = Except.ok r1 →
      loadChatsStep fs r1 = Except.ok r2 →
      fsRead fs messagesPath = some FileContent.corrupt →
      loadAllData fs = r2) ∧
    (∀ r1 r2 r3, loadContactsStep fs defaultLoadResult = Except.ok r1 →
      loadChatsStep fs r1 = Except.ok r2 →
      loadMessagesStep fs r2 = Except.ok r3 →
      fsRead fs metaPath = some FileContent.corrupt →
      loadAllData fs = r3) := by
  refine ⟨?_, ?_, ?_, ?_⟩
  · intro h
    simp [loadAllData, loadContactsStep, h]
  · intro r1 h1 hc
    simp [loadAllData, h1, loadChatsStep, hc]
  · intro r1 r2 h1 h2 hm
    simp [loadAllData, h1, h2, loadMessagesStep, hm]
  · intro r1 r2 r3 h1 h2 h3 hmeta
    simp [loadAllData, h1, h2, h3, loadMetaStep, hmeta]

/-- C2 amended, witness: a corrupt contacts file makes loadAllData return
the all-defaults result. -/
theorem load_partial_witness :
    loadAllData sampleFsCorrupt = defaultLoadResult :=
  (load_partial_scoping sampleFsCorrupt).1 rfl

theorem threadSeq_upsertMutate_le (st : Stores) (m : WMsg) (t : String)
    (h : (threadSeq st t).length ≤ 200) :
    (threadSeq (upsertMutate st m) t).length ≤ 200 := by
  cases hv : msgValidId m with
  | none =>
    have : upsertMutate st m = st := by simp [upsertMutate, hv]
    simpa [this] using h
  | some i =>
    cases ho : msgOwner m with
    | none =>
      have : upsertMutate st m = st := by simp [upsertMutate, hv, ho]
      simpa [this] using h
    | some cid =>
      have hmut : upsertMutate st m = ingestCapped st m i cid := by
        simp [upsertMutate, hv, ho]
      rw [hmut, threadSeq_ingestCapped]
      by_cases hct : cid = t
      · subst hct
        rw [if_pos rfl]
        show (if (threadSeq st cid ++ [m]).length > 200 then (threadSeq st cid ++ [m]).tail
             else threadSeq st cid ++ [m]).length ≤ 200
        by_cases hlen : (threadSeq st cid ++ [m]).length > 200
        · rw [if_pos hlen, List.length_tail]
          simp only [List.length_append, List.length_singleton] at hlen ⊢
          omega
        · rw [if_neg hlen]
          simp only [List.length_append, List.length_singleton] at hlen ⊢
          omega
      · simpa [hct] using h

theorem upsertMutate_messages_mono (st : Stores) (m : WMsg) (i : String)
    (h : mapHas st.messages i = true) :
    mapHas (upsertMutate st m).messages i = true := by
  cases hv : msgValidId m with
  | none => simpa [upsertMutate, hv] using h
  | some j =>
    cases ho : msgOwner m with
    | none => simpa [upsertMutate, hv, ho] using h
    | some cid =>
      have hmut : upsertMutate st m = ingestCapped st m j cid := by
        simp [upsertMutate, hv, ho]
      rw [hmut]
      simpa [ingestCapped] using mapHas_mapSet_mono st.messages j m i h

theorem upsertBatch_cap (st : Stores) (msgs : List WMsg) (t : String)
    (h : (threadSeq st t).length ≤ 200) :
    (threadSeq (upsertBatch st msgs).1 t).length ≤ 200 := by
  induction msgs generalizing st with
  | nil => simpa [upsertBatch] using h
  | cons m rest ih =>
    cases hk : m.key with
    | none => simpa [upsertBatch, upsertOne, hk] using h
    | some k =>
      have hstep : upsertBatch st (m :: rest) = upsertBatch (upsertMutate st m) rest := by
        simp [upsertBatch, upsertOne, hk]
      rw [hstep]
      exact ih (upsertMutate st m) (threadSeq_upsertMutate_le st m t h)

theorem upsertBatch_messages_mono (st : Stores) (msgs : List WMsg) (i : String)
    (h : mapHas st.messages i = true) :
    mapHas (upsertBatch st msgs).1.messages i = true := by
  induction msgs generalizing st with
  | nil => simpa [upsertBatch] using h
  | cons m rest ih =>
    cases hk : m.key with
    | none => simpa [upsertBatch, upsertOne, hk] using h
    | some k =>
      have hstep : upsertBatch st (m :: rest) = upsertBatch (upsertMutate st m) rest := by
        simp [upsertBatch, upsertOne, hk]
      rw [hstep]
      exact ih (upsertMutate st m) (upsertMutate_messages_mono st m i h)

/-- C5.  Under live messages.upsert ingestion a thread that starts within
the bound never exceeds 200 entries; whenever an append pushes the length
over 200 (a thread at exactly 200) the single front entry is dropped in
the same step; and this fast path never removes an entry from the flat
message index. -/
theorem upsert_cap_200 (st : Stores) (msgs : List WMsg) (t : String)
    (h : (threadSeq st t).length ≤ 200) :
    (threadSeq (upsertBatch st msgs).1 t).length ≤ 200 ∧
    (∀ m i, msgValidId m = some i → msgOwner m = some t →
      (threadSeq st t).length = 200 →
      threadSeq (upsertMutate st m) t = (threadSeq st t ++ [m]).tail) ∧
    (∀ i, mapHas st.messages i = true →
      mapHas (upsertBatch st msgs).1.messages i = true) := by
  refine ⟨upsertBatch_cap st msgs t h, ?_, ?_⟩
  · intro m i hv ho h200
    have hmut : upsertMutate st m = ingestCapped st m i t := by
      simp [upsertMutate, hv, ho]
    rw [hmut, threadSeq_ingestCapped, if_pos rfl]
    have : (threadSeq st t ++ [m]).length > 200 := by
      simp only [List.length_append, List.length_singleton]
      omega
    simp only [this, if_true]
  · intro i hi
    exact upsertBatch_messages_mono st msgs i hi

/-- C5, witness: a fresh thread fed one message stays within the bound
and the index keeps its pre-existing entry. -/
theorem upsert_cap_witness :
    (threadSeq (upsertBatch
      { contacts := [], chats := [],
        messages := [("old", { key := some { id := some "old", remoteJid := "t", fromMe := false }, conversation := none })] }
      [{ key := some { id := some "b", remoteJid := "t", fromMe := false }, conversation := none }]).1 "t").length ≤ 200 ∧
    mapHas (upsertBatch
      { contacts := [], chats := [],
        messages := [("old", { key := some { id := some "old", remoteJid := "t", fromMe := false }, conversation := none })] }
      [{ key := some { id := some "b", remoteJid := "t", fromMe := false }, conversation := none }]).1.messages "old" = true := by
  have h := upsert_cap_200
    { contacts := [], chats := [],
      messages := [("old", { key := some { id := some "old", remoteJid := "t", fromMe := false }, conversation := none })] }
    [{ key := some { id := some "b", remoteJid := "t", fromMe := false }, conversation := none }]
    "t" (by decide)
  exact ⟨h.1, h.2.2 "old" (by decide)⟩

theorem sysRun_no_fire (s : Sys) (evs : List SchedEv)
    (hp : s.processing = true) (hall : evs.all (fun e => !e.isFire) = true) :
    (sysRun s evs).writes = s.writes ∧ (sysRun s evs).processing = true ∧
    (nodupKeys s.queue → nodupKeys (sysRun s evs).queue) := by
  induction evs generalizing s with
  | nil => exact ⟨rfl, hp, fun h => h⟩
  | cons e rest ih =>
    have hall2 : rest.all (fun e => !e.isFire) = true := by
      simp only [List.all_cons, Bool.and_eq_true] at hall
      exact hall.2
    have he : e.isFire = false := by
      simp only [List.all_cons, Bool.and_eq_true] at hall
      simpa using hall.1
    cases e with
    | sig c =>
      have hres := ih (sysQueueSave s (collName c) (QData.live c)) rfl hall2
      exact ⟨hres.1, hres.2.1, fun hnd => hres.2.2 (nodupKeys_mapSet _ _ _ hnd)⟩
    | sigMeta =>
      have hres := ih (sysQueueSave s "meta" (QData.frozen (encodeMeta s.meta))) rfl hall2
      exact ⟨hres.1, hres.2.1, fun hnd => hres.2.2 (nodupKeys_mapSet _ _ _ hnd)⟩
    | mutate f =>
      have hres := ih { s with stores := f s.stores } hp hall2
      exact ⟨hres.1, hres.2.1, hres.2.2⟩
    | mutateMeta f =>
      have hres := ih { s with meta := f s.meta } hp hall2
      exact ⟨hres.1, hres.2.1, hres.2.2⟩
    | fire => simp [SchedEv.isFire] at he

/-- C4.  While the scheduler is pending, any number of signals and
mutations within the window invoke the Durable Writer not at all; the
single fire then writes each dirty name exactly once (the emitted batch
has no duplicate names), each live collection being serialized against
the stores as they stand at flush time — including the last mutation of
the window; afterwards the scheduler is idle with an empty dirty set, and
a signal arriving after the take re-arms a fresh cycle with that name
dirty again, so it is not lost. -/
theorem debounce_coalesce (s : Sys) (evs : List SchedEv)
    (hp : s.processing = true) (hnd : nodupKeys s.queue)
    (hall : evs.all (fun e => !e.isFire) = true) :
    (sysRun s evs).writes = s.writes ∧
    (((sysStep (sysRun s evs) SchedEv.fire).writes.drop s.writes.length).map Prod.fst).Nodup ∧
    (∀ n c, mapGet (sysRun s evs).queue n = some (QData.live c) →
      (n, serializeColl c (sysRun s evs).stores) ∈
        (sysStep (sysRun s evs) SchedEv.fire).writes.drop s.writes.length) ∧
    (sysStep (sysRun s evs) SchedEv.fire).processing = false ∧
    (sysStep (sysRun s evs) SchedEv.fire).queue = [] ∧
    (∀ c, (sysStep (sysStep (sysRun s evs) SchedEv.fire) (SchedEv.sig c)).processing = true ∧
      mapGet (sysStep (sysStep (sysRun s evs) SchedEv.fire) (SchedEv.sig c)).queue (collName c)
        = some (QData.live c)) := by
  obtain ⟨hw, hpr, hq⟩ := sysRun_no_fire s evs hp hall
  have hndq : nodupKeys (sysRun s evs).queue := hq hnd
  have hdrop : (sysStep (sysRun s evs) SchedEv.fire).writes.drop s.writes.length
      = (sysRun s evs).queue.map (fun e =>
          (e.1, match e.2 with
                | QData.live c => serializeColl c (sysRun s evs).stores
                | QData.frozen doc => doc)) := by
    show (sysFire (sysRun s evs)).writes.drop s.writes.length = _
    simp only [sysFire]
    rw [hw]
    exact List.drop_left _ _
  refine ⟨hw, ?_, ?_, rfl, rfl, ?_⟩
  · rw [hdrop]
    have : ((sysRun s evs).queue.map (fun e =>
        (e.1, match e.2 with
              | QData.live c => serializeColl c (sysRun s evs).stores
              | QData.frozen doc => doc))).map Prod.fst
        = mapKeys (sysRun s evs).queue := by
      rw [List.map_map]
      rfl
    rw [this]
    exact hndq
  · intro n c hget
    rw [hdrop]
    have hmem := mapGet_mem _ _ _ hget
    have := List.mem_map_of_mem (fun e =>
        ((e : String × QData).1, match e.2 with
              | QData.live c => serializeColl c (sysRun s evs).stores
              | QData.frozen doc => doc)) hmem
    simpa using this
  · intro c
    refine ⟨rfl, ?_⟩
    show mapGet (mapSet [] (collName c) (QData.live c)) (collName c) = some (QData.live c)
    rw [mapGet_mapSet]
    simp

/-- C4, witness: two signals for the messages collection and one store
mutation inside one pending window. -/
theorem debounce_witness :
    (sysStep (sysRun
      { queue := [], processing := true,
        stores := { contacts := [], chats := [], messages := [] },
        meta := defaultMeta, writes := [] }
      [SchedEv.sig LiveColl.messages,
       SchedEv.mutate (fun st => { st with
         messages := mapSet st.messages "x"
           { key := some { id := some "x", remoteJid := "t", fromMe := false }, conversation := none } }),
       SchedEv.sig LiveColl.messages]) SchedEv.fire).processing = false ∧
    (sysStep (sysRun
      { queue := [], processing := true,
        stores := { contacts := [], chats := [], messages := [] },
        meta := defaultMeta, writes := [] }
      [SchedEv.sig LiveColl.messages,
       SchedEv.mutate (fun st => { st with
         messages := mapSet st.messages "x"
           { key := some { id := some "x", remoteJid := "t", fromMe := false }, conversation := none } }),
       SchedEv.sig LiveColl.messages]) SchedEv.fire).queue = [] := by
  have h := debounce_coalesce
    { queue := [], processing := true,
      stores := { contacts := [], chats := [], messages := [] },
      meta := defaultMeta, writes := [] }
    [SchedEv.sig LiveColl.messages,
     SchedEv.mutate (fun st => { st with
       messages := mapSet st.messages "x"
         { key := some { id := some "x", remoteJid := "t", fromMe := false }, conversation := none } }),
     SchedEv.sig LiveColl.messages]
    rfl (by unfold nodupKeys; decide) rfl
  exact ⟨h.2.2.2.1, h.2.2.2.2.1⟩

theorem fsRead_saveToFile_self (fs : FS) (d : SaveData) :
    fsRead (saveToFile fs d) (savePath d) = some (FileContent.parsed (saveDoc d)) :=
  fsRead_durableWrite_self fs (savePath d) (saveDoc d)

theorem fsRead_saveToFile_other (fs : FS) (d : SaveData) (q : String)
    (h1 : q ≠ savePath d) (h2 : q ≠ tmpPath (savePath d)) :
    fsRead (saveToFile fs d) q = fsRead fs q :=
  fsRead_durableWrite_other fs (savePath d) (saveDoc d) q h1 h2

/-- C7.  Loading after a completed immediate flush of all four records
reproduces exactly the flushed in-memory state: the same contact set, the
same thread contents in the same order, the same message index and the
same metadata fields.  The hypotheses state that the flushed Maps are
well-formed (no duplicate keys), which every reachable JS Map satisfies. -/
theorem flush_load_roundtrip (fs : FS) (st : Stores) (meta : Meta)
    (hc : nodupKeys st.contacts) (hh : nodupKeys st.chats)
    (hm : nodupKeys st.messages) :
    loadAllData (flushAllNow fs st meta) =
      { contacts := st.contacts, chats := st.chats,
        messages := st.messages, meta := meta } := by
  have hun : flushAllNow fs st meta
      = durableWrite (durableWrite (durableWrite (durableWrite fs contactsPath
          (encodeEntriesDoc encodeContact st.contacts)) chatsPath
          (encodeEntriesDoc encodeThread st.chats)) messagesPath
          (encodeEntriesDoc encodeWMsg st.messages)) metaPath (encodeMeta meta) := rfl
  have rc : fsRead (flushAllNow fs st meta) contactsPath
      = some (FileContent.parsed (encodeEntriesDoc encodeContact st.contacts)) := by
    rw [hun,
        fsRead_durableWrite_other _ _ _ _ (by decide) (by decide),
        fsRead_durableWrite_other _ _ _ _ (by decide) (by decide),
        fsRead_durableWrite_other _ _ _ _ (by decide) (by decide)]
    exact fsRead_durableWrite_self fs contactsPath _
  have rh : fsRead (flushAllNow fs st meta) chatsPath
      = some (FileContent.parsed (encodeEntriesDoc encodeThread st.chats)) := by
    rw [hun,
        fsRead_durableWrite_other _ _ _ _ (by decide) (by decide),
        fsRead_durableWrite_other _ _ _ _ (by decide) (by decide)]
    exact fsRead_durableWrite_self _ chatsPath _
  have rm : fsRead (flushAllNow fs st meta) messagesPath
      = some (FileContent.parsed (encodeEntriesDoc encodeWMsg st.messages)) := by
    rw [hun,
        fsRead_durableWrite_other _ _ _ _ (by decide) (by decide)]
    exact fsRead_durableWrite_self _ messagesPath _
  have rmeta : fsRead (flushAllNow fs st meta) metaPath
      = some (FileContent.parsed (encodeMeta meta)) := by
    rw [hun]
    exact fsRead_durableWrite_self _ metaPath _
  have s1 : ∀ r : LoadResult, loadContactsStep (flushAllNow fs st meta) r
      = Except.ok { r with contacts := st.contacts } := by
    intro r
    simp [loadContactsStep, rc,
      decodeEntriesDoc_encodeEntriesDoc decodeContact encodeContact decodeContact_encodeContact,
      listToMap_eq_self st.contacts hc]
  have s2 : ∀ r : LoadResult, loadChatsStep (flushAllNow fs st meta) r
      = Except.ok { r with chats := st.chats } := by
    intro r
    simp [loadChatsStep, rh,
      decodeEntriesDoc_encodeEntriesDoc decodeThread encodeThread decodeThread_encodeThread,
      listToMap_eq_self st.chats hh]
  have s3 : ∀ r : LoadResult, loadMessagesStep (flushAllNow fs st meta) r
      = Except.ok { r with messages := st.messages } := by
    intro r
    simp [loadMessagesStep, rm,
      decodeEntriesDoc_encodeEntriesDoc decodeWMsg encodeWMsg decodeWMsg_encodeWMsg,
      listToMap_eq_self st.messages hm]
  have s4 : ∀ r : LoadResult, loadMetaStep (flushAllNow fs st meta) r
      = Except.ok { r with meta := meta } := by
    intro r
    simp [loadMetaStep, rmeta, decodeMeta_encodeMeta]
  simp [loadAllData, s1, s2, s3, s4]

/-- C7, witness: a concrete non-empty state survives the flush-and-load
round trip. -/
theorem flush_load_witness :
    loadAllData (flushAllNow []
      { contacts := [("u", { id := "u", name := some "Alice" })],
        chats := [("t", [{ key := some { id := some "g", remoteJid := "t", fromMe := false }, conversation := some "hi" }])],
        messages := [("g", { key := some { id := some "g", remoteJid := "t", fromMe := false }, conversation := some "hi" })] }
      { lastSync := some "2024-01-01", isFullySynced := true, syncAttempts := 2 }) =
      { contacts := [("u", { id := "u", name := some "Alice" })],
        chats := [("t", [{ key := some { id := some "g", remoteJid := "t", fromMe := false }, conversation := some "hi" }])],
        messages := [("g", { key := some { id := some "g", remoteJid := "t", fromMe := false }, conversation := some "hi" })],
        meta := { lastSync := some "2024-01-01", isFullySynced := true, syncAttempts := 2 } } := by
  exact flush_load_roundtrip []
    { contacts := [("u", { id := "u", name := some "Alice" })],
      chats := [("t", [{ key := some { id := some "g", remoteJid := "t", fromMe := false }, conversation := some "hi" }])],
      messages := [("g", { key := some { id := some "g", remoteJid := "t", fromMe := false }, conversation := some "hi" })] }
    { lastSync := some "2024-01-01", isFullySynced := true, syncAttempts := 2 }
    (by unfold nodupKeys; decide) (by unfold nodupKeys; decide) (by unfold nodupKeys; decide)

/-- Boolean membership of an id in a list of ids. -/
def idMem (i : String) : List String → Bool
  | [] => false
  | j :: rest => if j = i then true else idMem i rest

theorem idMem_append (i : String) (l1 l2 : List String) :
    idMem i (l1 ++ l2) = (idMem i l1 || idMem i l2) := by
  induction l1 with
  | nil => simp [idMem]
  | cons j rest ih =>
    by_cases hj : j = i
    · simp [idMem, hj]
    · simp [idMem, hj, ih]

theorem idMem_iff_mem (i : String) (l : List String) :
    idMem i l = true ↔ i ∈ l := by
  induction l with
  | nil => simp [idMem]
  | cons j rest ih =>
    by_cases hj : j = i
    · subst hj
      simp [idMem]
    · have hij : ¬ i = j := fun h => hj h.symm
      simp [idMem, hj, ih, hij]

theorem mapHas_mapDelete {α : Type} (m : SMap α) (k j : String)
    (hnd : nodupKeys m) :
    mapHas (mapDelete m k) j = if j = k then false else mapHas m j := by
  by_cases h : j = k
  · subst h
    simp [mapHas, mapGet_mapDelete_self m j hnd]
  · simp [mapHas, mapGet_mapDelete_ne m j k h, h]

theorem mem_keys_mapDelete {α : Type} (m : SMap α) (k j : String)
    (h : j ∈ mapKeys (mapDelete m k)) : j ∈ mapKeys m := by
  induction m with
  | nil => simpa [mapDelete] using h
  | cons e rest ih =>
    obtain ⟨k₀, v₀⟩ := e
    by_cases h₀ : k₀ = k
    · subst h₀
      simp only [mapDelete, if_pos rfl] at h
      show j ∈ k₀ :: mapKeys rest
      exact List.mem_cons_of_mem _ h
    · simp only [mapDelete, if_neg h₀] at h
      have h2 : j ∈ k₀ :: mapKeys (mapDelete rest k) := h
      show j ∈ k₀ :: mapKeys rest
      rcases List.mem_cons.mp h2 with heq | hmem
      · exact heq ▸ List.mem_cons_self _ _
      · exact List.mem_cons_of_mem _ (ih hmem)

theorem nodupKeys_mapDelete {α : Type} (m : SMap α) (k : String)
    (h : nodupKeys m) : nodupKeys (mapDelete m k) := by
  induction m with
  | nil => simpa [mapDelete] using h
  | cons e rest ih =>
    obtain ⟨k₀, v₀⟩ := e
    have hcons := h
    simp only [nodupKeys, mapKeys, List.map_cons, List.nodup_cons] at hcons
    by_cases h₀ : k₀ = k
    · subst h₀
      simp only [mapDelete, if_pos rfl]
      exact hcons.2
    · simp only [mapDelete, if_neg h₀]
      show nodupKeys ((k₀, v₀) :: mapDelete rest k)
      simp only [nodupKeys, mapKeys, List.map_cons, List.nodup_cons]
      refine ⟨?_, ?_⟩
      · intro hmem
        exact hcons.1 (mem_keys_mapDelete rest k k₀ hmem)
      · exact ih hcons.2

theorem cleanupDeletions_spec (old : List WMsg) :
    ∀ (ms : SMap WMsg) (cl : Nat), nodupKeys ms →
      nodupKeys (cleanupDeletions (ms, cl) old).1 ∧
      (∀ j, mapHas (cleanupDeletions (ms, cl) old).1 j
        = (mapHas ms j && !(idMem j (old.filterMap msgValidId)))) ∧
      cl ≤ (cleanupDeletions (ms, cl) old).2 ∧
      ((cleanupDeletions (ms, cl) old).2 = cl ↔
        (old.filterMap msgValidId).all (fun j => !(mapHas ms j)) = true) := by
  induction old with
  | nil =>
    intro ms cl hnd
    refine ⟨hnd, ?_, Nat.le_refl cl, ?_⟩
    · intro j
      simp [cleanupDeletions, idMem]
    · simp [cleanupDeletions]
  | cons m rest ih =>
    intro ms cl hnd
    cases hv : msgValidId m with
    | none =>
      have hstep : cleanupDeletions (ms, cl) (m :: rest) = cleanupDeletions (ms, cl) rest := by
        simp [cleanupDeletions, hv]
      have hids : (m :: rest).filterMap msgValidId = rest.filterMap msgValidId := by
        simp [List.filterMap_cons, hv]
      rw [hstep, hids]
      exact ih ms cl hnd
    | some i =>
      have hids : (m :: rest).filterMap msgValidId = i :: rest.filterMap msgValidId := by
        simp [List.filterMap_cons, hv]
      cases hhas : mapHas ms i with
      | true =>
        have hstep : cleanupDeletions (ms, cl) (m :: rest)
            = cleanupDeletions (mapDelete ms i, cl + 1) rest := by
          simp [cleanupDeletions, hv, hhas]
        rw [hstep, hids]
        have hnd2 := nodupKeys_mapDelete ms i hnd
        obtain ⟨ha, hb, hmono, hiff⟩ := ih (mapDelete ms i) (cl + 1) hnd2
        refine ⟨ha, ?_, Nat.le_trans (Nat.le_succ cl) hmono, ?_⟩
        · intro j
          rw [hb j, mapHas_mapDelete ms i j hnd]
          by_cases hj : j = i
          · subst hj
            simp [idMem]
          · have hij : ¬ i = j := fun hh => hj hh.symm
            simp [idMem, hij, hj]
        · constructor
          · intro hcl
            exfalso
            omega
          · intro hall
            exfalso
            simp [List.all_cons, hhas] at hall
      | false =>
        have hstep : cleanupDeletions (ms, cl) (m :: rest) = cleanupDeletions (ms, cl) rest := by
          simp [cleanupDeletions, hv, hhas]
        rw [hstep, hids]
        obtain ⟨ha, hb, hmono, hiff⟩ := ih ms cl hnd
        refine ⟨ha, ?_, hmono, ?_⟩
        · intro j
          rw [hb j]
          by_cases hj : j = i
          · subst hj
            simp [idMem, hhas]
          · have hij : ¬ i = j := fun hh => hj hh.symm
            simp [idMem, hij]
        · rw [hiff]
          simp [List.all_cons, hhas]

/-- The messages removed from the fronts of over-long threads in one
retention pass. -/
def removedMsgs (chatStore : SMap (List WMsg)) (maxLen : Nat) : List WMsg :=
  (chatStore.map (fun e => e.2.take (e.2.length - maxLen))).flatten

/-- The truthy ids of the removed messages. -/
def removedIds (chatStore : SMap (List WMsg)) (maxLen : Nat) : List String :=
  (removedMsgs chatStore maxLen).filterMap msgValidId

theorem removedIds_cons (e : String × List WMsg) (rest : SMap (List WMsg))
    (maxLen : Nat) :
    removedIds (e :: rest) maxLen
      = (e.2.take (e.2.length - maxLen)).filterMap msgValidId ++ removedIds rest maxLen := by
  simp [removedIds, removedMsgs, List.filterMap_append]

theorem cleanupFold_spec (maxLen : Nat) (chats : SMap (List WMsg)) :
    ∀ (ms : SMap WMsg) (built : SMap (List WMsg)) (cl : Nat), nodupKeys ms →
      (chats.foldl (cleanupStep maxLen) (ms, built, cl)).2.1
        = built ++ chats.map (fun e => (e.1, e.2.drop (e.2.length - maxLen))) ∧
      nodupKeys (chats.foldl (cleanupStep maxLen) (ms, built, cl)).1 ∧
      (∀ j, mapHas (chats.foldl (cleanupStep maxLen) (ms, built, cl)).1 j
        = (mapHas ms j && !(idMem j (removedIds chats maxLen)))) ∧
      cl ≤ (chats.foldl (cleanupStep maxLen) (ms, built, cl)).2.2 ∧
      ((chats.foldl (cleanupStep maxLen) (ms, built, cl)).2.2 = cl ↔
        (removedIds chats maxLen).all (fun j => !(mapHas ms j)) = true) := by
  induction chats with
  | nil =>
    intro ms built cl hnd
    refine ⟨by simp, hnd, ?_, Nat.le_refl cl, ?_⟩
    · intro j
      simp [removedIds, removedMsgs, idMem]
    · simp [removedIds, removedMsgs]
  | cons e rest ih =>
    intro ms built cl hnd
    by_cases hlen : e.2.length > maxLen
    · have hstep : (e :: rest).foldl (cleanupStep maxLen) (ms, built, cl)
          = rest.foldl (cleanupStep maxLen)
              ((cleanupDeletions (ms, cl) (e.2.take (e.2.length - maxLen))).1,
               built ++ [(e.1, e.2.drop (e.2.length - maxLen))],
               (cleanupDeletions (ms, cl) (e.2.take (e.2.length - maxLen))).2) := by
        simp [cleanupStep, hlen]
      obtain ⟨hD1, hD2, hD3, hD4⟩ :=
        cleanupDeletions_spec (e.2.take (e.2.length - maxLen)) ms cl hnd
      obtain ⟨ha, hndk, hhasf, hmono2, hiff2⟩ :=
        ih (cleanupDeletions (ms, cl) (e.2.take (e.2.length - maxLen))).1
          (built ++ [(e.1, e.2.drop (e.2.length - maxLen))])
          (cleanupDeletions (ms, cl) (e.2.take (e.2.length - maxLen))).2 hD1
      rw [hstep]
      refine ⟨?_, hndk, ?_, Nat.le_trans hD3 hmono2, ?_⟩
      · rw [ha]
        simp
      · intro j
        rw [hhasf j, hD2 j, removedIds_cons, idMem_append]
        cases hx : mapHas ms j <;>
          cases hA : idMem j ((e.2.take (e.2.length - maxLen)).filterMap msgValidId) <;>
          cases hB : idMem j (removedIds rest maxLen) <;> simp
      · rw [removedIds_cons]
        constructor
        · intro hres
          have h1 : (cleanupDeletions (ms, cl) (e.2.take (e.2.length - maxLen))).2 = cl := by
            omega
          have h2 : (rest.foldl (cleanupStep maxLen)
              ((cleanupDeletions (ms, cl) (e.2.take (e.2.length - maxLen))).1,
               built ++ [(e.1, e.2.drop (e.2.length - maxLen))],
               (cleanupDeletions (ms, cl) (e.2.take (e.2.length - maxLen))).2)).2.2
              = (cleanupDeletions (ms, cl) (e.2.take (e.2.length - maxLen))).2 := by
            omega
          have hallOld := hD4.mp h1
          have hallRest := hiff2.mp h2
          rw [List.all_append, Bool.and_eq_true]
          refine ⟨hallOld, ?_⟩
          rw [List.all_eq_true] at hallRest hallOld ⊢
          intro j hj
          cases hx : mapHas ms j with
          | false => simp
          | true =>
            exfalso
            have hdel := hallRest j hj
            rw [hD2 j, hx] at hdel
            simp at hdel
            have := hallOld j ((idMem_iff_mem _ _).mp hdel)
            rw [hx] at this
            simp at this
        · intro hall
          rw [List.all_append, Bool.and_eq_true] at hall
          obtain ⟨hallOld, hallRest⟩ := hall
          have h1 := hD4.mpr hallOld
          have hallRest2 : (removedIds rest maxLen).all
              (fun j => !(mapHas (cleanupDeletions (ms, cl) (e.2.take (e.2.length - maxLen))).1 j)) = true := by
            rw [List.all_eq_true] at hallRest ⊢
            intro j hj
            have hms : (!(mapHas ms j)) = true := hallRest j hj
            rw [hD2 j]
            cases hx : mapHas ms j with
            | false => simp
            | true =>
              rw [hx] at hms
              simp at hms
          have h2 := hiff2.mpr hallRest2
          omega
    · have hstep : (e :: rest).foldl (cleanupStep maxLen) (ms, built, cl)
          = rest.foldl (cleanupStep maxLen) (ms, built ++ [(e.1, e.2)], cl) := by
        simp [cleanupStep, hlen]
      have hdropz : e.2.length - maxLen = 0 :=
        Nat.sub_eq_zero_of_le (Nat.le_of_not_lt hlen)
      have htakez : e.2.take (e.2.length - maxLen) = [] := by
        rw [hdropz]
        rfl
      obtain ⟨ha, hndk, hhasf, hmono2, hiff2⟩ := ih ms (built ++ [(e.1, e.2)]) cl hnd
      rw [hstep]
      refine ⟨?_, hndk, ?_, hmono2, ?_⟩
      · rw [ha]
        simp [hdropz]
      · intro j
        rw [hhasf j, removedIds_cons, htakez]
        simp
      · rw [hiff2, removedIds_cons, htakez]
        simp

/-- C6 counterexample.  A thread of one message (whose key has no id) is
trimmed from length 1 to the bound 0, yet no signals are emitted: the
code signals only when the cleaned counter of actual index deletions is
positive, not whenever a thread was trimmed. -/
theorem cleanup_missing_signal_counterexample :
    (cleanupAndSignal []
      [("t", [{ key := some { id := none, remoteJid := "t", fromMe := false }, conversation := none }])]
      0).2 = [] ∧
    (cleanupAndSignal []
      [("t", [{ key := some { id := none, remoteJid := "t", fromMe := false }, conversation := none }])]
      0).1.2.1 = [("t", [])] := by
  decide

/-- C6 amended.  The retention pass removes references only from the
front of each over-long thread, down to exactly the bound; an id is still
in the flat index afterwards iff it was there before and is not the
truthy id of any removed message; and the messages-changed and
chats-changed signals fire iff at least one removed id was actually
present in the index (a trim that deletes nothing from the index emits no
signals). -/
theorem cleanup_trims_and_signals (msgStore : SMap WMsg)
    (chatStore : SMap (List WMsg)) (maxLen : Nat) (hnd : nodupKeys msgStore) :
    (cleanupOldMessages msgStore chatStore maxLen).2.1
      = chatStore.map (fun e => (e.1, e.2.drop (e.2.length - maxLen))) ∧
    (∀ j, mapHas (cleanupOldMessages msgStore chatStore maxLen).1 j
      = (mapHas msgStore j && !(idMem j (removedIds chatStore maxLen)))) ∧
    ((cleanupAndSignal msgStore chatStore maxLen).2
      = if (removedIds chatStore maxLen).any (fun j => mapHas msgStore j)
        then ["messages", "chats"] else []) := by
  obtain ⟨ha, hndk, hhas, hmono, hiff⟩ :=
    cleanupFold_spec maxLen chatStore msgStore [] 0 hnd
  refine ⟨by simpa using ha, hhas, ?_⟩
  show cleanupSignals (cleanupOldMessages msgStore chatStore maxLen).2.2 = _
  by_cases hany : (removedIds chatStore maxLen).any (fun j => mapHas msgStore j) = true
  · have hnotall : ¬ (removedIds chatStore maxLen).all (fun j => !(mapHas msgStore j)) = true := by
      rw [List.any_eq_true] at hany
      obtain ⟨j, hj, hjh⟩ := hany
      rw [List.all_eq_true]
      intro hallc
      have := hallc j hj
      rw [hjh] at this
      simp at this
    have hpos : (cleanupOldMessages msgStore chatStore maxLen).2.2 ≠ 0 := by
      intro h0
      exact hnotall (hiff.mp h0)
    have hgt : (cleanupOldMessages msgStore chatStore maxLen).2.2 > 0 :=
      Nat.pos_of_ne_zero hpos
    simp [cleanupSignals, hgt, hany]
  · have hallc : (removedIds chatStore maxLen).all (fun j => !(mapHas msgStore j)) = true := by
      rw [List.all_eq_true]
      intro j hj
      cases hx : mapHas msgStore j with
      | false => simp
      | true =>
        exfalso
        exact hany (List.any_eq_true.mpr ⟨j, hj, hx⟩)
    have h0 : (cleanupOldMessages msgStore chatStore maxLen).2.2 = 0 := hiff.mpr hallc
    simp [cleanupSignals, h0, hany]

/-- C6 amended, witness: with the index holding id "a" and a thread of
two messages trimmed to the bound 1, the thread keeps only its newest
message. -/
theorem cleanup_witness :
    (cleanupOldMessages
      [("a", { key := some { id := some "a", remoteJid := "t", fromMe := false }, conversation := none })]
      [("t", [{ key := some { id := some "a", remoteJid := "t", fromMe := false }, conversation := none },
              { key := some { id := some "b", remoteJid := "t", fromMe := false }, conversation := none }])]
      1).2.1
      = [("t", [{ key := some { id := some "a", remoteJid := "t", fromMe := false }, conversation := none },
                { key := some { id := some "b", remoteJid := "t", fromMe := false }, conversation := none }])].map
          (fun e => (e.1, e.2.drop (e.2.length - 1))) := by
  exact (cleanup_trims_and_signals
    [("a", { key := some { id := some "a", remoteJid := "t", fromMe := false }, conversation := none })]
    [("t", [{ key := some { id := some "a", remoteJid := "t", fromMe := false }, conversation := none },
            { key := some { id := some "b", remoteJid := "t", fromMe := false }, conversation := none }])]
    1 (by unfold nodupKeys; decide)).1

end WapClient
